import Mathlib

/-!
Formal model of the core of the `raytracer` repository.

Scalars (`f64`/`f32` in the source) are modelled as exact rationals.  The
square root and tangent functions, which have no rational counterpart, are
passed to the embedded definitions as explicit function parameters (`sq`,
`tanq`, `toRad`), so every definition stays executable while following the
source code line by line.  Randomness is modelled by explicit input streams.
-/

namespace Raytracer

/-- Tolerance for approximate comparisons between f64 values (`almost.rs`). -/
def F64_TOLERANCE : ℚ := 1 / 100000000

/-- Tolerance for approximate comparisons between f32 values (`almost.rs`). -/
def F32_TOLERANCE : ℚ := 1 / 1000000

/-- Embeds `<f64 as AlmostPartialEq>::almost_eq`: `(self - other) < F64_TOLERANCE`. -/
def almostEq64 (a b : ℚ) : Bool := decide (a - b < F64_TOLERANCE)

/-- Embeds `<f64 as AlmostPartialEq>::almost_zero`: `f64::abs(*self) < F64_TOLERANCE`. -/
def almostZero64 (a : ℚ) : Bool := decide (|a| < F64_TOLERANCE)

/-- Embeds `<f32 as AlmostPartialEq>::almost_eq`: `(self - other) < F32_TOLERANCE`. -/
def almostEq32 (a b : ℚ) : Bool := decide (a - b < F32_TOLERANCE)

/-- Embeds `<f32 as AlmostPartialEq>::almost_zero`: `f32::abs(*self) < F32_TOLERANCE`. -/
def almostZero32 (a : ℚ) : Bool := decide (|a| < F32_TOLERANCE)

/-- Embeds `Vec3` (`vec3.rs`): a 3-component vector of `f64` scalars. -/
structure Vec3 where
  x : ℚ
  y : ℚ
  z : ℚ
deriving DecidableEq, Repr

/-- Alias `Point3` from `vec3.rs`. -/
abbrev Point3 := Vec3

instance : Neg Vec3 := ⟨fun u => ⟨-u.x, -u.y, -u.z⟩⟩

instance : Add Vec3 := ⟨fun u v => ⟨u.x + v.x, u.y + v.y, u.z + v.z⟩⟩

instance : Sub Vec3 := ⟨fun u v => ⟨u.x - v.x, u.y - v.y, u.z - v.z⟩⟩

/-- Scalar multiplication `f64 * Vec3` from `vec3.rs`. -/
instance : SMul ℚ Vec3 := ⟨fun s u => ⟨s * u.x, s * u.y, s * u.z⟩⟩

/-- Scalar division `Vec3 / f64`, defined in the source as `self * (1.0 / rhs)`. -/
instance : HDiv Vec3 ℚ Vec3 := ⟨fun u s => (1 / s) • u⟩

/-- Embeds `Vec3::dot`. -/
def Vec3.dot (u v : Vec3) : ℚ := u.x * v.x + u.y * v.y + u.z * v.z

/-- Embeds `Vec3::len_sqr`. -/
def Vec3.lenSqr (u : Vec3) : ℚ := Vec3.dot u u

/-- Embeds `Vec3::len`, with `sq` standing for `f64::sqrt`. -/
def Vec3.len (sq : ℚ → ℚ) (u : Vec3) : ℚ := sq u.lenSqr

/-- Embeds `Vec3::cross`. -/
def Vec3.cross (u v : Vec3) : Vec3 :=
  ⟨u.y * v.z - u.z * v.y, u.z * v.x - u.x * v.z, u.x * v.y - u.y * v.x⟩

/-- Embeds `Vec3::unit`: `self / self.len()`. -/
def Vec3.unit (sq : ℚ → ℚ) (u : Vec3) : Vec3 := u / (u.len sq)

/-- Embeds `Vec3::almost_zero`: every component is almost zero. -/
def Vec3.almostZero (u : Vec3) : Bool :=
  almostZero64 u.x && almostZero64 u.y && almostZero64 u.z

/-- Embeds `Vec3::reflect`: `v - 2.0 * dot(v, normal) * normal`. -/
def Vec3.reflect (v normal : Vec3) : Vec3 := v - (2 * Vec3.dot v normal) • normal

/-- Embeds `Ray` (`ray.rs`). -/
structure Ray where
  origin : Point3
  direction : Vec3
deriving DecidableEq, Repr

/-- Embeds `Ray::at`: `origin + t * direction`. -/
def Ray.at (r : Ray) (t : ℚ) : Point3 := r.origin + t • r.direction

/-- Embeds `Interval` (`interval.rs`). -/
structure Interval where
  min : ℚ
  max : ℚ
deriving DecidableEq, Repr

/-- Embeds `Interval::contains`: `min <= x && x <= max`. -/
def Interval.contains (i : Interval) (x : ℚ) : Bool :=
  decide (i.min ≤ x) && decide (x ≤ i.max)

/-- Embeds `Interval::surrounds`: `min < x && x < max`. -/
def Interval.surrounds (i : Interval) (x : ℚ) : Bool :=
  decide (i.min < x) && decide (x < i.max)

/-- Embeds `Interval::clamp`. -/
def Interval.clamp (i : Interval) (x : ℚ) : ℚ :=
  if x < i.min then i.min else if x > i.max then i.max else x

/-- Embeds `Color` (`color.rs`): three `f32` radiance channels. -/
structure Color where
  r : ℚ
  g : ℚ
  b : ℚ
deriving DecidableEq, Repr

instance : Add Color := ⟨fun c d => ⟨c.r + d.r, c.g + d.g, c.b + d.b⟩⟩

/-- Hadamard (component-wise) product of colors, from `color.rs`. -/
instance : Mul Color := ⟨fun c d => ⟨c.r * d.r, c.g * d.g, c.b * d.b⟩⟩

/-- Scalar multiplication `f32 * Color` from `color.rs`. -/
instance : SMul ℚ Color := ⟨fun s c => ⟨s * c.r, s * c.g, s * c.b⟩⟩

/-- Embeds `Orientation` (`hittable.rs`). -/
inductive Orientation where
  | Interior
  | Exterior
deriving DecidableEq, Repr

/-- Embeds `HitRecord` (`hittable.rs`).  The material reference is modelled by a
value of an arbitrary type `μ`. -/
structure HitRecord (μ : Type) where
  p : Point3
  normal : Vec3
  material : μ
  t : ℚ
  orientation : Orientation
deriving DecidableEq, Repr

/-- Embeds `HitRecord::new`: flips the outward normal onto the side opposing
the ray when needed, tagging the orientation accordingly. -/
def HitRecord.new {μ : Type} (p : Point3) (normal : Vec3) (t : ℚ) (ray : Ray)
    (material : μ) : HitRecord μ :=
  if Vec3.dot ray.direction normal < 0 then
    ⟨p, normal, material, t, Orientation.Exterior⟩
  else
    ⟨p, -normal, material, t, Orientation.Interior⟩

/-- Embeds `Sphere` (`sphere.rs`). -/
structure Sphere (μ : Type) where
  center : Point3
  radius : ℚ
  material : μ
deriving DecidableEq, Repr

/-- The quantity `half_b` computed in `Sphere::hit`: `dot(oc, direction)`
with `oc = origin - center`. -/
def Sphere.halfB {μ : Type} (s : Sphere μ) (ray : Ray) : ℚ :=
  Vec3.dot (ray.origin - s.center) ray.direction

/-- The quantity `c` computed in `Sphere::hit`: `oc.len_sqr() - radius * radius`. -/
def Sphere.ccoef {μ : Type} (s : Sphere μ) (ray : Ray) : ℚ :=
  (ray.origin - s.center).lenSqr - s.radius * s.radius

/-- The discriminant computed in `Sphere::hit`: `half_b * half_b - a * c`
with `a = direction.len_sqr()`. -/
def Sphere.disc {μ : Type} (s : Sphere μ) (ray : Ray) : ℚ :=
  s.halfB ray * s.halfB ray - ray.direction.lenSqr * s.ccoef ray

/-- The first candidate root tried by `Sphere::hit`: `(-half_b - sqrtd) / a`. -/
def Sphere.root1 {μ : Type} (sq : ℚ → ℚ) (s : Sphere μ) (ray : Ray) : ℚ :=
  (-(s.halfB ray) - sq (s.disc ray)) / ray.direction.lenSqr

/-- The second candidate root tried by `Sphere::hit`: `(-half_b + sqrtd) / a`. -/
def Sphere.root2 {μ : Type} (sq : ℚ → ℚ) (s : Sphere μ) (ray : Ray) : ℚ :=
  (-(s.halfB ray) + sq (s.disc ray)) / ray.direction.lenSqr

/-- The successful-hit result built at the end of `Sphere::hit`: point,
outward normal `(p - center) / radius`, and the hit record. -/
def Sphere.mkHit {μ : Type} (s : Sphere μ) (ray : Ray) (root : ℚ) :
    Option (HitRecord μ) :=
  let p := ray.at root
  some (HitRecord.new p ((p - s.center) / s.radius) root ray s.material)

/-- Embeds `Sphere::hit` (`sphere.rs`), with `sq` standing for `f64::sqrt`:
reject a negative discriminant, then try the smaller root and fall back to
the larger root, returning a hit only when the root is strictly inside the
interval. -/
def Sphere.hit {μ : Type} (sq : ℚ → ℚ) (s : Sphere μ) (ray : Ray)
    (rayT : Interval) : Option (HitRecord μ) :=
  if s.disc ray < 0 then none
  else if rayT.surrounds (s.root1 sq ray) then s.mkHit ray (s.root1 sq ray)
  else if rayT.surrounds (s.root2 sq ray) then s.mkHit ray (s.root2 sq ray)
  else none

/-- The step of the fold inside `HittableList::hit`: intersect one object
against the interval narrowed to the current best parameter, keeping the new
record on a hit. -/
def listHitStep {α μ : Type} (hit : α → Ray → Interval → Option (HitRecord μ))
    (ray : Ray) (lo : ℚ) (acc : Option (HitRecord μ) × ℚ) (object : α) :
    Option (HitRecord μ) × ℚ :=
  match hit object ray (Interval.mk lo acc.2) with
  | some r => (some r, r.t)
  | none => acc

/-- Embeds `HittableList::hit` (`hittable.rs`): fold over the objects,
narrowing the upper parameter bound to the closest hit found so far.  The
member intersection function `hit` is a parameter, mirroring the generic
`T: Hittable` bound of the source. -/
def hittableListHit {α μ : Type} (hit : α → Ray → Interval → Option (HitRecord μ))
    (objects : List α) (ray : Ray) (rayT : Interval) : Option (HitRecord μ) :=
  (objects.foldl (listHitStep hit ray rayT.min) ((none : Option (HitRecord μ)), rayT.max)).1

/-- Embeds `Metallic` (`material.rs`). -/
structure Metallic where
  albedo : Color
  fuzz : ℚ
deriving DecidableEq, Repr

/-- Embeds `Metallic::new`: the stored fuzz is `f64::min(fuzz, 1.0)`. -/
def Metallic.new (albedo : Color) (fuzz : ℚ) : Metallic :=
  ⟨albedo, min fuzz 1⟩

/-- Embeds `ErrorKind` (`lib.rs`). -/
inductive ErrorKind where
  | Camera (msg : String)
deriving DecidableEq, Repr

/-- Embeds `Error` (`lib.rs`). -/
structure Error where
  kind : ErrorKind
deriving DecidableEq, Repr

/-- Embeds `Error::new_camera`. -/
def Error.newCamera (msg : String) : Error := ⟨ErrorKind.Camera msg⟩

/-- Embeds the `Camera` struct (`camera.rs`). -/
structure Camera where
  aspect_ratio : ℚ
  image_width : ℕ
  image_height : ℕ
  max_depth : ℕ
  samples_per_pixel : ℕ
  vfov : ℚ
  look_from : Point3
  look_at : Point3
  vup : Vec3
  defocus_angle : ℚ
  focus_dist : ℚ
  center : Point3
  pixel00_loc : Point3
  pixel_delta_u : Vec3
  pixel_delta_v : Vec3
  u : Vec3
  v : Vec3
  w : Vec3
  defocus_disk_u : Vec3
  defocus_disk_v : Vec3
deriving DecidableEq, Repr

/-- Embeds `Camera::new` (`camera.rs`).  `sq` stands for `f64::sqrt`, `tanq`
for `f64::tan` and `toRad` for `f64::to_radians`.  The validation checks, the
image-height derivation (`as u32` truncates the nonnegative quotient, hence
`Int.floor`), and every derived field follow the source order. -/
def Camera.new (sq tanq toRad : ℚ → ℚ) (aspect_ratio : ℚ)
    (image_width samples_per_pixel max_depth : ℕ) (vfov : ℚ)
    (look_from look_at : Point3) (vup : Vec3) (defocus_angle focus_dist : ℚ) :
    Except Error Camera :=
  if aspect_ratio ≤ 0 then
    Except.error (Error.newCamera
      s!"aspect_ratio must be greater than 0 (given {aspect_ratio})")
  else if image_width = 0 then
    Except.error (Error.newCamera
      s!"image_width must be greater than 0 (given {image_width})")
  else if samples_per_pixel = 0 then
    Except.error (Error.newCamera
      s!"samples_per_pixel must be greater than 0 (given {samples_per_pixel})")
  else if max_depth = 0 then
    Except.error (Error.newCamera
      s!"max_depth must be greater than 0 (given {samples_per_pixel})")
  else
    let image_height : ℕ := (Int.floor (max ((image_width : ℚ) / aspect_ratio) 1)).toNat
    let center := look_from
    let theta := toRad vfov
    let h := tanq (theta / 2)
    let viewport_height := 2 * h * focus_dist
    let viewport_width := viewport_height * ((image_width : ℚ) / (image_height : ℚ))
    let w := (look_from - look_at).unit sq
    let u := (Vec3.cross vup w).unit sq
    let v := Vec3.cross w u
    let viewport_u := viewport_width • u
    let viewport_v := viewport_height • (-v)
    let pixel_delta_u := viewport_u / (image_width : ℚ)
    let pixel_delta_v := viewport_v / (image_height : ℚ)
    let viewport_upper_left :=
      center - (focus_dist • w) - viewport_u / (2 : ℚ) - viewport_v / (2 : ℚ)
    let pixel00_loc := viewport_upper_left + (1 / 2 : ℚ) • (pixel_delta_u + pixel_delta_v)
    let defocus_radius := focus_dist * tanq (toRad (defocus_angle / 2))
    let defocus_disk_u := defocus_radius • u
    let defocus_disk_v := defocus_radius • v
    Except.ok
      { aspect_ratio := aspect_ratio
        image_width := image_width
        image_height := image_height
        max_depth := max_depth
        samples_per_pixel := samples_per_pixel
        vfov := vfov
        look_from := look_from
        look_at := look_at
        vup := vup
        defocus_angle := defocus_angle
        focus_dist := focus_dist
        center := center
        pixel00_loc := pixel00_loc
        pixel_delta_u := pixel_delta_u
        pixel_delta_v := pixel_delta_v
        u := u
        v := v
        w := w
        defocus_disk_u := defocus_disk_u
        defocus_disk_v := defocus_disk_v }

/-- Embeds `Camera::ray_color` (`camera.rs`).  The scene intersection is the
parameter `world`; since the camera always intersects over the fixed bound
`[0.001, +INFINITY)` (whose upper end is not a rational), `world` models
`|ray| world.hit(ray, INITIAL_T_BOUND)` with the bound already applied.
Material dispatch `rec.material.scatter(ray, &rec)` is the parameter
`scatter`.  Recursion is on the `depth` argument, which decreases by one per
bounce exactly as in the source. -/
def Camera.rayColor {μ : Type} (sq : ℚ → ℚ) (world : Ray → Option (HitRecord μ))
    (scatter : μ → Ray → HitRecord μ → Option (Ray × Color)) :
    Ray → ℕ → Color
  | _, 0 => ⟨0, 0, 0⟩
  | ray, depth + 1 =>
    match world ray with
    | some r =>
      match scatter r.material ray r with
      | some (scattered, attenuation) =>
        attenuation * Camera.rayColor sq world scatter scattered depth
      | none => ⟨0, 0, 0⟩
    | none =>
      let unitDir := ray.direction.unit sq
      let a := (1 / 2 : ℚ) * (unitDir.y + 1)
      (1 - a) • (⟨1, 1, 1⟩ : Color) + a • (⟨1 / 2, 7 / 10, 1⟩ : Color)

/-- Fuel-instrumented version of `Camera::ray_color`: `gas` counts the call
frames the recursion is allowed to open, and `none` means the budget was
exhausted before the function returned.  Used to state that the recursion of
the source terminates within `depth` nested calls. -/
def Camera.rayColorF {μ : Type} (sq : ℚ → ℚ) (world : Ray → Option (HitRecord μ))
    (scatter : μ → Ray → HitRecord μ → Option (Ray × Color)) :
    Ray → ℕ → ℕ → Option Color
  | _, 0, _ => some ⟨0, 0, 0⟩
  | _, _ + 1, 0 => none
  | ray, depth + 1, gas + 1 =>
    match world ray with
    | some r =>
      match scatter r.material ray r with
      | some (scattered, attenuation) =>
        (Camera.rayColorF sq world scatter scattered depth gas).map
          (fun c => attenuation * c)
      | none => some ⟨0, 0, 0⟩
    | none =>
      let unitDir := ray.direction.unit sq
      let a := (1 / 2 : ℚ) * (unitDir.y + 1)
      some ((1 - a) • (⟨1, 1, 1⟩ : Color) + a • (⟨1 / 2, 7 / 10, 1⟩ : Color))

/-- Termination condition of the rejection-sampling loop in
`Vec3::random_in_unit_sphere`: the stream `s` of candidate vectors drawn by
`Vec3::random_in_range(-1.0, 1.0)` eventually yields a point with squared
length below one (the loop's exit test `p.len_sqr() < 1.0`). -/
abbrev loopTerminates (s : ℕ → Vec3) : Prop := ∃ n, (s n).lenSqr < 1

/-- Embeds `Vec3::random_in_unit_sphere`: keep drawing candidates from the
stream until the exit test holds, returning the first candidate inside the
unit sphere.  The loop is modelled by `Nat.find`, so it is defined exactly
when the loop terminates. -/
def randomInUnitSphere (s : ℕ → Vec3) (h : loopTerminates s) : Vec3 :=
  s (Nat.find h)

/-- Least element of a nonempty rational list, `none` for the empty list. -/
def listMin : List ℚ → Option ℚ
  | [] => none
  | x :: xs =>
    some (match listMin xs with
      | none => x
      | some m => min x m)

/-- Least element of `ts` lying strictly between `lo` and `hi` (the open
interval membership used by `Interval::surrounds`), `none` if there is
no such element. -/
def leastIn (lo hi : ℚ) (ts : List ℚ) : Option ℚ :=
  listMin (ts.filter fun t => decide (lo < t) && decide (t < hi))

/-- The hittable contract stated by the specification for a member object:
relative to a fixed ray, the object has a fixed list of candidate hit
parameters, and `hit` reports exactly the least candidate lying strictly
inside whatever interval it is given. -/
def lawfulHit {α μ : Type} (hit : α → Ray → Interval → Option (HitRecord μ))
    (ray : Ray) (o : α) (cands : List ℚ) : Prop :=
  ∀ i : Interval, (hit o ray i).map HitRecord.t = leastIn i.min i.max cands

/-- Concatenation of the candidate parameter lists of all objects. -/
def allCands {α : Type} (cands : α → List ℚ) : List α → List ℚ
  | [] => []
  | o :: os => cands o ++ allCands cands os

/-- Root-selection contract of `Sphere::hit`: reject a negative discriminant,
report the smaller root when the interval strictly surrounds it, otherwise
the larger root, otherwise nothing, and never report a parameter outside the
open interval. -/
def sphereHitSpec {μ : Type} (sq : ℚ → ℚ) (s : Sphere μ) (ray : Ray)
    (rayT : Interval) : Prop :=
  (s.disc ray < 0 → s.hit sq ray rayT = none)
  ∧ (0 ≤ s.disc ray → rayT.surrounds (s.root1 sq ray) →
      (s.hit sq ray rayT).map HitRecord.t = some (s.root1 sq ray))
  ∧ (0 ≤ s.disc ray → ¬ rayT.surrounds (s.root1 sq ray) →
      rayT.surrounds (s.root2 sq ray) →
      (s.hit sq ray rayT).map HitRecord.t = some (s.root2 sq ray))
  ∧ (0 ≤ s.disc ray → ¬ rayT.surrounds (s.root1 sq ray) →
      ¬ rayT.surrounds (s.root2 sq ray) → s.hit sq ray rayT = none)
  ∧ (∀ r, s.hit sq ray rayT = some r → rayT.surrounds r.t)

/-- Closest-hit contract of `HittableList::hit` relative to per-object
candidate lists: the returned parameter is the least member candidate
strictly inside the interval, and that parameter does not depend on the
order of the objects. -/
def listHitSpec {α μ : Type} (hit : α → Ray → Interval → Option (HitRecord μ))
    (ray : Ray) (cands : α → List ℚ) (os : List α) (i : Interval) : Prop :=
  (hittableListHit hit os ray i).map HitRecord.t = leastIn i.min i.max (allCands cands os)
  ∧ ∀ os' : List α, os.Perm os' →
      (hittableListHit hit os' ray i).map HitRecord.t
        = (hittableListHit hit os ray i).map HitRecord.t

/-- Concrete ray used by witnesses: origin at zero, looking down `-z`. -/
def rayZ : Ray := ⟨⟨0, 0, 0⟩, ⟨0, 0, -1⟩⟩

/-- Concrete unit sphere two units down `-z`, with material tag `0`. -/
def sphereM0 : Sphere ℕ := ⟨⟨0, 0, -2⟩, 1, 0⟩

/-- The same geometry as `sphereM0`, with material tag `1`. -/
def sphereM1 : Sphere ℕ := ⟨⟨0, 0, -2⟩, 1, 1⟩

/-- Concrete parameter interval used by witnesses. -/
def ivZ : Interval := ⟨1 / 1000, 100⟩

/-- Candidate hit parameters of a sphere relative to `rayZ`: its two
quadratic roots. -/
def candsZ : Sphere ℕ → List ℚ :=
  fun s => [Sphere.root1 id s rayZ, Sphere.root2 id s rayZ]

theorem Vec3.dot_neg (u v : Vec3) : Vec3.dot u (-v) = -(Vec3.dot u v) := by
  show u.x * -v.x + u.y * -v.y + u.z * -v.z
      = -(u.x * v.x + u.y * v.y + u.z * v.z)
  ring

theorem HitRecord.new_t {μ : Type} (p : Point3) (n : Vec3) (t : ℚ) (ray : Ray)
    (m : μ) : (HitRecord.new p n t ray m).t = t := by
  unfold HitRecord.new
  split <;> rfl

theorem Sphere.mkHit_map_t {μ : Type} (s : Sphere μ) (ray : Ray) (root : ℚ) :
    (s.mkHit ray root).map HitRecord.t = some root := by
  simp [Sphere.mkHit, HitRecord.new_t]

/-- C1: for every ray and every scene, `Camera::ray_color` called with
`depth = 0` returns exactly the black color `(0,0,0)` without consulting the
scene (the scene `world` and material dispatch `scatter` are arbitrary). -/
theorem ray_color_depth_zero_black {μ : Type} (sq : ℚ → ℚ)
    (world : Ray → Option (HitRecord μ))
    (scatter : μ → Ray → HitRecord μ → Option (Ray × Color)) (ray : Ray) :
    Camera.rayColor sq world scatter ray 0 = ⟨0, 0, 0⟩ := rfl

/-- C3: the normal stored by `HitRecord::new` always opposes the incoming
ray (`dot(direction, normal) ≤ 0`); the tag is `Exterior` exactly when the
geometric normal was kept, in which case the stored normal is the given one,
and `Interior` tags the flipped normal. -/
theorem hit_record_normal_opposes_ray {μ : Type} (p : Point3) (n : Vec3)
    (t : ℚ) (ray : Ray) (m : μ) :
    Vec3.dot ray.direction (HitRecord.new p n t ray m).normal ≤ 0
    ∧ ((HitRecord.new p n t ray m).orientation = Orientation.Exterior
        ↔ Vec3.dot ray.direction n < 0)
    ∧ ((HitRecord.new p n t ray m).orientation = Orientation.Exterior
        → (HitRecord.new p n t ray m).normal = n)
    ∧ ((HitRecord.new p n t ray m).orientation = Orientation.Interior
        → (HitRecord.new p n t ray m).normal = -n) := by
  by_cases h : Vec3.dot ray.direction n < 0
  · have e : HitRecord.new p n t ray m = ⟨p, n, m, t, Orientation.Exterior⟩ := by
      simp [HitRecord.new, h]
    rw [e]
    exact ⟨le_of_lt h, by simp [h], fun _ => rfl, by intro hc; simp at hc⟩
  · have e : HitRecord.new p n t ray m = ⟨p, -n, m, t, Orientation.Interior⟩ := by
      simp [HitRecord.new, h]
    rw [e]
    refine ⟨?_, by simp [h], by intro hc; simp at hc, fun _ => rfl⟩
    show Vec3.dot ray.direction (-n) ≤ 0
    rw [Vec3.dot_neg]
    linarith [not_lt.mp h]

/-- C3 witness: a concrete ray along `-z` and outward normal `+z`. -/
theorem hit_record_normal_opposes_ray_witness :
    Vec3.dot rayZ.direction
        (HitRecord.new ⟨0, 0, -1⟩ ⟨0, 0, 1⟩ 1 rayZ (0 : ℕ)).normal ≤ 0
    ∧ (HitRecord.new ⟨0, 0, -1⟩ ⟨0, 0, 1⟩ 1 rayZ (0 : ℕ)).normal = ⟨0, 0, 1⟩ := by
  have h := hit_record_normal_opposes_ray (⟨0, 0, -1⟩ : Point3) (⟨0, 0, 1⟩ : Vec3) 1 rayZ (0 : ℕ)
  refine ⟨h.1, h.2.2.1 (h.2.1.mpr ?_)⟩
  norm_num [rayZ, Vec3.dot]

/-- C7 counterexample: `Metallic::new` does not clamp a negative fuzz
argument from below, so the stored fuzz of `Metallic::new(albedo, -1.0)`
is `-1`, outside `[0, 1]`. -/
theorem metallic_fuzz_not_clamped_below :
    ¬ (0 ≤ (Metallic.new ⟨1, 1, 1⟩ (-1)).fuzz
        ∧ (Metallic.new ⟨1, 1, 1⟩ (-1)).fuzz ≤ 1) := by
  norm_num [Metallic.new]

/-- C7 amended: the stored fuzz is `min(fuzz, 1)`, hence never above one,
and lies in `[0, 1]` whenever the argument is nonnegative. -/
theorem metallic_fuzz_min_one (albedo : Color) (fuzz : ℚ) :
    (Metallic.new albedo fuzz).fuzz = min fuzz 1
    ∧ (Metallic.new albedo fuzz).fuzz ≤ 1
    ∧ (0 ≤ fuzz → 0 ≤ (Metallic.new albedo fuzz).fuzz
        ∧ (Metallic.new albedo fuzz).fuzz ≤ 1) :=
  ⟨rfl, min_le_right _ _, fun h => ⟨le_min h zero_le_one, min_le_right _ _⟩⟩

/-- C7 witness: a nonnegative fuzz argument yields a stored fuzz in `[0,1]`. -/
theorem metallic_fuzz_min_one_witness :
    (0 : ℚ) ≤ 1 / 2
    ∧ 0 ≤ (Metallic.new ⟨1, 1, 1⟩ (1 / 2)).fuzz
    ∧ (Metallic.new ⟨1, 1, 1⟩ (1 / 2)).fuzz ≤ 1 :=
  ⟨by norm_num, (metallic_fuzz_min_one ⟨1, 1, 1⟩ (1 / 2)).2.2 (by norm_num)⟩

/-- C8 counterexample: on the empty interval `[10, 9]` the clamp of `9.5`
is `10`, whose clamp is `9`, so `clamp` is not idempotent there. -/
theorem interval_clamp_not_idempotent_empty :
    (Interval.mk 10 9).clamp ((Interval.mk 10 9).clamp (19 / 2))
      ≠ (Interval.mk 10 9).clamp (19 / 2) := by
  norm_num [Interval.clamp]

/-- C8 amended: `clamp` is idempotent on every interval with
`min ≤ max` (the claim fails only for empty intervals). -/
theorem interval_clamp_idempotent (i : Interval) (h : i.min ≤ i.max) (x : ℚ) :
    i.clamp (i.clamp x) = i.clamp x := by
  unfold Interval.clamp
  split_ifs <;> linarith

/-- C8 witness: idempotence on the nonempty interval `[0, 1]` at `5`. -/
theorem interval_clamp_idempotent_witness :
    (Interval.mk 0 1).min ≤ (Interval.mk 0 1).max
    ∧ (Interval.mk 0 1).clamp ((Interval.mk 0 1).clamp 5)
        = (Interval.mk 0 1).clamp 5 :=
  ⟨by norm_num, interval_clamp_idempotent ⟨0, 1⟩ (by norm_num) 5⟩

/-- C10: `almost_eq` on raw floats is one-sided: it holds exactly when
`a - b` is below the tolerance, hence always holds for `a ≤ b`, and for
`a < b - tol` it holds one way but not the other; the `f32` variant behaves
the same with its own tolerance. -/
theorem almost_eq_one_sided (a b : ℚ) :
    (almostEq64 a b = true ↔ a - b < F64_TOLERANCE)
    ∧ (a ≤ b → almostEq64 a b = true)
    ∧ (a < b - F64_TOLERANCE → almostEq64 a b = true ∧ almostEq64 b a = false)
    ∧ (almostEq32 a b = true ↔ a - b < F32_TOLERANCE)
    ∧ (a ≤ b → almostEq32 a b = true)
    ∧ (a < b - F32_TOLERANCE → almostEq32 a b = true ∧ almostEq32 b a = false) := by
  have hpos64 : (0 : ℚ) < F64_TOLERANCE := by norm_num [F64_TOLERANCE]
  have hpos32 : (0 : ℚ) < F32_TOLERANCE := by norm_num [F32_TOLERANCE]
  have h64 : ∀ x y : ℚ, almostEq64 x y = true ↔ x - y < F64_TOLERANCE := by
    intro x y; simp [almostEq64]
  have h32 : ∀ x y : ℚ, almostEq32 x y = true ↔ x - y < F32_TOLERANCE := by
    intro x y; simp [almostEq32]
  have hf64 : ∀ x y : ℚ, almostEq64 x y = false ↔ ¬ (x - y < F64_TOLERANCE) := by
    intro x y; simp [almostEq64]
  have hf32 : ∀ x y : ℚ, almostEq32 x y = false ↔ ¬ (x - y < F32_TOLERANCE) := by
    intro x y; simp [almostEq32]
  refine ⟨h64 a b, fun h => (h64 a b).mpr (by linarith),
    fun h => ⟨(h64 a b).mpr (by linarith), (hf64 b a).mpr (by linarith)⟩,
    h32 a b, fun h => (h32 a b).mpr (by linarith),
    fun h => ⟨(h32 a b).mpr (by linarith), (hf32 b a).mpr (by linarith)⟩⟩

/-- C10 witness: at `a = 0`, `b = 1` the predicate holds one way only, for
both scalar widths. -/
theorem almost_eq_one_sided_witness :
    almostEq64 0 1 = true ∧ almostEq64 1 0 = false
    ∧ almostEq32 0 1 = true ∧ almostEq32 1 0 = false := by
  have h := almost_eq_one_sided (0 : ℚ) 1
  have c64 : (0 : ℚ) < 1 - F64_TOLERANCE := by norm_num [F64_TOLERANCE]
  have c32 : (0 : ℚ) < 1 - F32_TOLERANCE := by norm_num [F32_TOLERANCE]
  exact ⟨(h.2.2.1 (by linarith)).1, (h.2.2.1 (by linarith)).2,
    (h.2.2.2.2.2 (by linarith)).1, (h.2.2.2.2.2 (by linarith)).2⟩

/-- C2: for every square-root function, ray, interval, and sphere of
positive radius, `Sphere::hit` follows the root-selection contract
`sphereHitSpec`: smaller root first, larger root second, nothing when the
discriminant is negative or both roots fall outside, and any reported
parameter lies strictly inside the interval. -/
theorem sphere_hit_root_selection {μ : Type} (sq : ℚ → ℚ) (s : Sphere μ)
    (ray : Ray) (rayT : Interval) (_hr : 0 < s.radius) :
    sphereHitSpec sq s ray rayT := by
  refine ⟨fun h => ?_, fun hd h1 => ?_, fun hd h1 h2 => ?_, fun hd h1 h2 => ?_,
    fun r hsome => ?_⟩
  · simp [Sphere.hit, h]
  · simp [Sphere.hit, not_lt.mpr hd, h1, Sphere.mkHit_map_t]
  · simp [Sphere.hit, not_lt.mpr hd, h1, h2, Sphere.mkHit_map_t]
  · simp [Sphere.hit, not_lt.mpr hd, h1, h2]
  · unfold Sphere.hit at hsome
    by_cases hd : s.disc ray < 0
    · rw [if_pos hd] at hsome
      exact Option.noConfusion hsome
    · rw [if_neg hd] at hsome
      by_cases h1 : rayT.surrounds (Sphere.root1 sq s ray) = true
      · rw [if_pos h1] at hsome
        simp only [Sphere.mkHit, Option.some.injEq] at hsome
        rw [← hsome, HitRecord.new_t]
        exact h1
      · rw [if_neg h1] at hsome
        by_cases h2 : rayT.surrounds (Sphere.root2 sq s ray) = true
        · rw [if_pos h2] at hsome
          simp only [Sphere.mkHit, Option.some.injEq] at hsome
          rw [← hsome, HitRecord.new_t]
          exact h2
        · rw [if_neg h2] at hsome
          exact Option.noConfusion hsome

/-- C2 witness: the unit sphere at `(0,0,-2)` hit by the ray from the origin
along `-z`, with the identity standing in for the square root (the
discriminant is `1`). -/
theorem sphere_hit_root_selection_witness :
    0 < sphereM0.radius ∧ sphereHitSpec id sphereM0 rayZ ivZ :=
  ⟨by norm_num [sphereM0],
    sphere_hit_root_selection id sphereM0 rayZ ivZ (by norm_num [sphereM0])⟩

/-- C6: `Camera::new` fails exactly when `aspect_ratio ≤ 0`,
`image_width = 0`, `samples_per_pixel = 0` or `max_depth = 0`; the failure
carries a named camera error, and no camera value is produced in that case
(the result is `Except.error`, so its `toOption` is `none`). -/
theorem camera_new_error_iff (sq tanq toRad : ℚ → ℚ) (ar : ℚ) (w spp md : ℕ)
    (vfov : ℚ) (lf la : Point3) (vup : Vec3) (da fd : ℚ) :
    ((Camera.new sq tanq toRad ar w spp md vfov lf la vup da fd).toOption = none
      ↔ (ar ≤ 0 ∨ w = 0 ∨ spp = 0 ∨ md = 0))
    ∧ (∀ e, Camera.new sq tanq toRad ar w spp md vfov lf la vup da fd
          = Except.error e → ∃ msg, e = Error.newCamera msg) := by
  unfold Camera.new
  split_ifs with h1 h2 h3 h4
  · exact ⟨iff_of_true rfl (Or.inl h1),
      fun e he => ⟨_, by injection he with h; exact h.symm⟩⟩
  · exact ⟨iff_of_true rfl (Or.inr (Or.inl h2)),
      fun e he => ⟨_, by injection he with h; exact h.symm⟩⟩
  · exact ⟨iff_of_true rfl (Or.inr (Or.inr (Or.inl h3))),
      fun e he => ⟨_, by injection he with h; exact h.symm⟩⟩
  · exact ⟨iff_of_true rfl (Or.inr (Or.inr (Or.inr h4))),
      fun e he => ⟨_, by injection he with h; exact h.symm⟩⟩
  · refine ⟨?_, fun e he => absurd he (by simp)⟩
    simp [Except.toOption, h1, h2, h3, h4]

/-- C6 witness: a nonpositive aspect ratio is rejected while the same
configuration with aspect ratio `1` is accepted. -/
theorem camera_new_error_iff_witness :
    (Camera.new id id id (-1) 4 1 1 90 ⟨0, 0, 0⟩ ⟨0, 0, -1⟩ ⟨0, 1, 0⟩ 0 1).toOption = none
    ∧ (Camera.new id id id 1 4 1 1 90 ⟨0, 0, 0⟩ ⟨0, 0, -1⟩ ⟨0, 1, 0⟩ 0 1).toOption ≠ none := by
  constructor
  · exact (camera_new_error_iff id id id (-1) 4 1 1 90 ⟨0, 0, 0⟩ ⟨0, 0, -1⟩
      ⟨0, 1, 0⟩ 0 1).1.mpr (Or.inl (by norm_num))
  · intro hnone
    rcases (camera_new_error_iff id id id 1 4 1 1 90 ⟨0, 0, 0⟩ ⟨0, 0, -1⟩
      ⟨0, 1, 0⟩ 0 1).1.mp hnone with h | h | h | h <;> norm_num at h

/-- C5 counterexample: with `aspect_ratio = 4` and `image_width = 7` the
constructed camera's `image_height` is `1` (the quotient `1.75` is
truncated by `as u32`), while `max(1, round(7/4)) = 2`. -/
theorem camera_image_height_not_rounded :
    (Camera.new id id id 4 7 1 1 90 ⟨0, 0, 0⟩ ⟨0, 0, -1⟩ ⟨0, 1, 0⟩ 0 1).toOption.map
        Camera.image_height = some 1
    ∧ max 1 (round ((7 : ℚ) / 4)) = (2 : ℤ) := by
  constructor
  · unfold Camera.new
    rw [if_neg (by norm_num), if_neg (by norm_num), if_neg (by norm_num),
      if_neg (by norm_num)]
    simp only [Except.toOption, Option.map_some']
    have hmax : (((7 : ℕ) : ℚ)) / 4 ⊔ 1 = 7 / 4 := max_eq_left (by norm_num)
    rw [hmax]
    norm_num
  · have h2 : round ((7 : ℚ) / 4) = 2 := by
      norm_num [round_eq]
    rw [h2]
    decide

/-- C5 amended: under a valid configuration the constructed camera's
`image_height` is `max(1, trunc(image_width / aspect_ratio))`, i.e. the
quotient is truncated (floored), not rounded to nearest. -/
theorem camera_image_height_truncated (sq tanq toRad : ℚ → ℚ) (ar : ℚ)
    (w spp md : ℕ) (vfov : ℚ) (lf la : Point3) (vup : Vec3) (da fd : ℚ)
    (har : 0 < ar) (hw : w ≠ 0) (hspp : spp ≠ 0) (hmd : md ≠ 0) :
    (Camera.new sq tanq toRad ar w spp md vfov lf la vup da fd).toOption.map
        Camera.image_height = some (max 1 (Int.floor ((w : ℚ) / ar)).toNat) := by
  unfold Camera.new
  rw [if_neg (not_le.mpr har), if_neg hw, if_neg hspp, if_neg hmd]
  simp only [Except.toOption, Option.map, Option.some.injEq]
  rcases le_or_lt 1 ((w : ℚ) / ar) with h | h
  · rw [max_eq_left h]
    have h1 : (1 : ℤ) ≤ Int.floor ((w : ℚ) / ar) := by
      rw [Int.le_floor]; exact_mod_cast h
    omega
  · rw [max_eq_right (le_of_lt h)]
    have h0 : Int.floor ((w : ℚ) / ar) < 1 := by
      rw [Int.floor_lt]; exact_mod_cast h
    rw [Int.floor_one]
    omega

/-- C9 counterexample: the rejection-sampling loop of
`Vec3::random_in_unit_sphere` does not terminate for every random stream:
the constant stream `(-1,-1,-1)` (a legal output of
`random::gen_range(-1.0, 1.0)`) never passes the exit test, so the loop
runs forever on it. -/
theorem rejection_loop_divergent_stream :
    ¬ loopTerminates (fun _ => ⟨-1, -1, -1⟩) := by
  rintro ⟨n, hn⟩
  norm_num [Vec3.lenSqr, Vec3.dot] at hn

/-- C9 amended: the `ray_color` recursion itself always terminates — it
completes within `depth` nested calls, for any scene and any depth — and
the rejection-sampling loop terminates (returning the first candidate
inside the unit sphere) exactly on streams that eventually produce such a
candidate. -/
theorem ray_color_terminates_bounded :
    (∀ (μ : Type) (sq : ℚ → ℚ) (world : Ray → Option (HitRecord μ))
        (scatter : μ → Ray → HitRecord μ → Option (Ray × Color)) (ray : Ray)
        (depth gas : ℕ), depth ≤ gas →
        Camera.rayColorF sq world scatter ray depth gas
          = some (Camera.rayColor sq world scatter ray depth))
    ∧ (∀ (s : ℕ → Vec3) (h : loopTerminates s),
        (randomInUnitSphere s h).lenSqr < 1
        ∧ ∀ m, m < Nat.find h → ¬ (s m).lenSqr < 1) := by
  constructor
  · intro μ sq world scatter ray depth gas
    induction depth generalizing ray gas with
    | zero => intro _; rfl
    | succ d ih =>
      intro hle
      cases gas with
      | zero => exact absurd hle (by omega)
      | succ g =>
        have hdg : d ≤ g := by omega
        cases hw : world ray with
        | none => simp [Camera.rayColorF, Camera.rayColor, hw]
        | some r =>
          cases hs : scatter r.material ray r with
          | none => simp [Camera.rayColorF, Camera.rayColor, hw, hs]
          | some pr =>
            obtain ⟨scattered, att⟩ := pr
            simp [Camera.rayColorF, Camera.rayColor, hw, hs, ih scattered g hdg]
  · intro s h
    refine ⟨?_, fun m hm => Nat.find_min h hm⟩
    simpa [randomInUnitSphere] using Nat.find_spec h

/-- C9 witness: the bounded-recursion statement at depth `0` and a stream
whose first candidate already lies inside the unit sphere. -/
theorem ray_color_terminates_bounded_witness :
    Camera.rayColorF id (fun _ => (none : Option (HitRecord ℕ)))
        (fun _ _ _ => none) rayZ 0 0
      = some (Camera.rayColor id (fun _ => (none : Option (HitRecord ℕ)))
          (fun _ _ _ => none) rayZ 0)
    ∧ (randomInUnitSphere (fun _ => ⟨0, 0, 0⟩)
        ⟨0, by norm_num [Vec3.lenSqr, Vec3.dot]⟩).lenSqr < 1 :=
  ⟨ray_color_terminates_bounded.1 ℕ id (fun _ => none) (fun _ _ _ => none)
      rayZ 0 0 (le_refl 0),
    (ray_color_terminates_bounded.2 (fun _ => ⟨0, 0, 0⟩)
      ⟨0, by norm_num [Vec3.lenSqr, Vec3.dot]⟩).1⟩

theorem listMin_eq_none_iff (l : List ℚ) : listMin l = none ↔ l = [] := by
  cases l <;> simp [listMin]

theorem listMin_eq_some_iff : ∀ (l : List ℚ) (m : ℚ),
    listMin l = some m ↔ m ∈ l ∧ ∀ x ∈ l, m ≤ x := by
  intro l
  induction l with
  | nil => intro m; simp [listMin]
  | cons x xs ih =>
    intro m
    cases hx : listMin xs with
    | none =>
      have hnil : xs = [] := (listMin_eq_none_iff xs).mp hx
      subst hnil
      constructor
      · intro h
        have hxm : x = m := by simpa [listMin] using h
        subst hxm
        refine ⟨List.mem_singleton_self x, ?_⟩
        intro y hy
        rw [List.mem_singleton.mp hy]
      · rintro ⟨hm, _⟩
        have hmx : m = x := List.mem_singleton.mp hm
        subst hmx
        simp [listMin]
    | some m' =>
      obtain ⟨hmem', hmin'⟩ := (ih m').mp hx
      have hL : listMin (x :: xs) = some (min x m') := by
        simp [listMin, hx]
      rw [hL]
      constructor
      · intro h
        have hmm : min x m' = m := Option.some.inj h
        subst hmm
        constructor
        · rcases le_total x m' with hxm | hxm
          · rw [min_eq_left hxm]; exact List.mem_cons_self x xs
          · rw [min_eq_right hxm]; exact List.mem_cons_of_mem x hmem'
        · intro y hy
          rcases List.mem_cons.mp hy with rfl | hy'
          · exact min_le_left _ _
          · exact le_trans (min_le_right x m') (hmin' y hy')
      · rintro ⟨hm, hle⟩
        have h1 : m ≤ min x m' :=
          le_min (hle x (List.mem_cons_self x xs))
            (hle m' (List.mem_cons_of_mem x hmem'))
        have h2 : min x m' ≤ m := by
          rcases List.mem_cons.mp hm with rfl | hm2
          · exact min_le_left _ _
          · exact le_trans (min_le_right x m') (hmin' m hm2)
        exact congrArg some (le_antisymm h2 h1)

theorem leastIn_eq_some_iff (lo hi : ℚ) (l : List ℚ) (m : ℚ) :
    leastIn lo hi l = some m
      ↔ m ∈ l ∧ lo < m ∧ m < hi ∧ ∀ x ∈ l, lo < x → x < hi → m ≤ x := by
  unfold leastIn
  rw [listMin_eq_some_iff]
  constructor
  · rintro ⟨hm, hmin⟩
    rw [List.mem_filter] at hm
    obtain ⟨hml, hcond⟩ := hm
    have hc : lo < m ∧ m < hi := by simpa using hcond
    refine ⟨hml, hc.1, hc.2, fun x hx h1x h2x => hmin x ?_⟩
    rw [List.mem_filter]
    exact ⟨hx, by simpa using And.intro h1x h2x⟩
  · rintro ⟨hml, h1, h2, hmin⟩
    refine ⟨List.mem_filter.mpr ⟨hml, by simpa using And.intro h1 h2⟩,
      fun x hx => ?_⟩
    rw [List.mem_filter] at hx
    have hc : lo < x ∧ x < hi := by simpa using hx.2
    exact hmin x hx.1 hc.1 hc.2

theorem leastIn_eq_none_iff (lo hi : ℚ) (l : List ℚ) :
    leastIn lo hi l = none ↔ ∀ x ∈ l, ¬ (lo < x ∧ x < hi) := by
  unfold leastIn
  rw [listMin_eq_none_iff, List.filter_eq_nil_iff]
  constructor
  · intro h x hx hc
    exact h x hx (by simpa using And.intro hc.1 hc.2)
  · intro h x hx hc
    exact h x hx (by simpa using hc)

theorem leastIn_append_none (lo hi : ℚ) (A B : List ℚ)
    (hA : leastIn lo hi A = none) :
    leastIn lo hi (A ++ B) = leastIn lo hi B := by
  have hA' := (leastIn_eq_none_iff lo hi A).mp hA
  cases hB : leastIn lo hi B with
  | none =>
    have hB' := (leastIn_eq_none_iff lo hi B).mp hB
    apply (leastIn_eq_none_iff lo hi (A ++ B)).mpr
    intro x hx
    rcases List.mem_append.mp hx with h | h
    · exact hA' x h
    · exact hB' x h
  | some m =>
    obtain ⟨hmB, h1, h2, hmin⟩ := (leastIn_eq_some_iff lo hi B m).mp hB
    apply (leastIn_eq_some_iff lo hi (A ++ B) m).mpr
    refine ⟨List.mem_append.mpr (Or.inr hmB), h1, h2, fun x hx hx1 hx2 => ?_⟩
    rcases List.mem_append.mp hx with h | h
    · exact absurd ⟨hx1, hx2⟩ (hA' x h)
    · exact hmin x h hx1 hx2

theorem leastIn_append_narrow (lo hi : ℚ) (A B : List ℚ) (m0 : ℚ)
    (hA : leastIn lo hi A = some m0) :
    leastIn lo hi (A ++ B)
      = match leastIn lo m0 B with
        | some m => some m
        | none => some m0 := by
  obtain ⟨hmA, h1, h2, hminA⟩ := (leastIn_eq_some_iff lo hi A m0).mp hA
  cases hB : leastIn lo m0 B with
  | none =>
    have hB' := (leastIn_eq_none_iff lo m0 B).mp hB
    apply (leastIn_eq_some_iff lo hi (A ++ B) m0).mpr
    refine ⟨List.mem_append.mpr (Or.inl hmA), h1, h2, fun x hx hx1 hx2 => ?_⟩
    rcases List.mem_append.mp hx with h | h
    · exact hminA x h hx1 hx2
    · by_contra hlt
      push_neg at hlt
      exact hB' x h ⟨hx1, hlt⟩
  | some m =>
    obtain ⟨hmB, hb1, hb2, hminB⟩ := (leastIn_eq_some_iff lo m0 B m).mp hB
    apply (leastIn_eq_some_iff lo hi (A ++ B) m).mpr
    refine ⟨List.mem_append.mpr (Or.inr hmB), hb1, lt_trans hb2 h2,
      fun x hx hx1 hx2 => ?_⟩
    rcases List.mem_append.mp hx with h | h
    · exact le_trans (le_of_lt hb2) (hminA x h hx1 hx2)
    · rcases lt_or_le x m0 with hxm | hxm
      · exact hminB x h hx1 hxm
      · exact le_trans (le_of_lt hb2) hxm

theorem leastIn_congr (lo hi : ℚ) (l₁ l₂ : List ℚ)
    (h : ∀ x, x ∈ l₁ ↔ x ∈ l₂) :
    leastIn lo hi l₁ = leastIn lo hi l₂ := by
  cases h2 : leastIn lo hi l₂ with
  | none =>
    have hn := (leastIn_eq_none_iff lo hi l₂).mp h2
    exact (leastIn_eq_none_iff lo hi l₁).mpr (fun x hx => hn x ((h x).mp hx))
  | some m =>
    obtain ⟨hm, a1, a2, hmin⟩ := (leastIn_eq_some_iff lo hi l₂ m).mp h2
    exact (leastIn_eq_some_iff lo hi l₁ m).mpr
      ⟨(h m).mpr hm, a1, a2, fun x hx h1x h2x => hmin x ((h x).mp hx) h1x h2x⟩

theorem allCands_mem {α : Type} (cands : α → List ℚ) (os : List α) (x : ℚ) :
    x ∈ allCands cands os ↔ ∃ o, o ∈ os ∧ x ∈ cands o := by
  induction os with
  | nil => simp [allCands]
  | cons o os ih =>
    simp only [allCands, List.mem_append, ih, List.mem_cons]
    constructor
    · rintro (h | ⟨o', ho', hx⟩)
      · exact ⟨o, Or.inl rfl, h⟩
      · exact ⟨o', Or.inr ho', hx⟩
    · rintro ⟨o', rfl | ho', hx⟩
      · exact Or.inl hx
      · exact Or.inr ⟨o', ho', hx⟩

theorem listHit_foldl_spec {α μ : Type}
    (hit : α → Ray → Interval → Option (HitRecord μ)) (ray : Ray)
    (cands : α → List ℚ) (lo : ℚ) :
    ∀ (os : List α) (acc : Option (HitRecord μ)) (tmax : ℚ),
      (∀ o ∈ os, lawfulHit hit ray o (cands o)) →
      ((os.foldl (listHitStep hit ray lo) (acc, tmax)).1).map HitRecord.t
        = match leastIn lo tmax (allCands cands os) with
          | some m => some m
          | none => acc.map HitRecord.t := by
  intro os
  induction os with
  | nil => intro acc tmax _; rfl
  | cons o os ih =>
    intro acc tmax hlaw
    have hlaw' : ∀ o' ∈ os, lawfulHit hit ray o' (cands o') :=
      fun o' ho' => hlaw o' (List.mem_cons_of_mem o ho')
    have hobj : (hit o ray (Interval.mk lo tmax)).map HitRecord.t
        = leastIn lo tmax (cands o) :=
      hlaw o (List.mem_cons_self o os) (Interval.mk lo tmax)
    rw [List.foldl_cons]
    cases hho : hit o ray (Interval.mk lo tmax) with
    | none =>
      rw [hho] at hobj
      simp only [Option.map_none'] at hobj
      have hstep : listHitStep hit ray lo (acc, tmax) o = (acc, tmax) := by
        simp [listHitStep, hho]
      rw [hstep, ih acc tmax hlaw',
        show allCands cands (o :: os) = cands o ++ allCands cands os from rfl,
        leastIn_append_none lo tmax _ _ hobj.symm]
    | some r =>
      rw [hho] at hobj
      simp only [Option.map_some'] at hobj
      have hstep : listHitStep hit ray lo (acc, tmax) o = (some r, r.t) := by
        simp [listHitStep, hho]
      rw [hstep, ih (some r) r.t hlaw',
        show allCands cands (o :: os) = cands o ++ allCands cands os from rfl,
        leastIn_append_narrow lo tmax _ _ _ hobj.symm]
      cases hrest : leastIn lo r.t (allCands cands os) <;> simp

/-- C4 amended: provided every member obeys the hittable contract (it has a
fixed candidate list and reports the least candidate strictly inside the
interval it is given), `HittableList::hit` returns the hit whose parameter
is the least member candidate strictly inside the query interval, and that
parameter is invariant under permutation of the objects.  (The full record
is not permutation-invariant: see the order-dependence counterexample.) -/
theorem hittable_list_hit_min_t {α μ : Type}
    (hit : α → Ray → Interval → Option (HitRecord μ)) (ray : Ray)
    (cands : α → List ℚ) (os : List α)
    (hlaw : ∀ o ∈ os, lawfulHit hit ray o (cands o)) (i : Interval) :
    listHitSpec hit ray cands os i := by
  have hmain : ∀ (os' : List α), (∀ o ∈ os', lawfulHit hit ray o (cands o)) →
      (hittableListHit hit os' ray i).map HitRecord.t
        = leastIn i.min i.max (allCands cands os') := by
    intro os' hlaw'
    unfold hittableListHit
    rw [listHit_foldl_spec hit ray cands i.min os' none i.max hlaw']
    cases hr : leastIn i.min i.max (allCands cands os') <;> simp
  refine ⟨hmain os hlaw, fun os' hperm => ?_⟩
  rw [hmain os hlaw, hmain os' (fun o ho => hlaw o (hperm.mem_iff.mpr ho))]
  apply leastIn_congr
  intro x
  rw [allCands_mem, allCands_mem]
  constructor
  · rintro ⟨o, ho, hx⟩
    exact ⟨o, hperm.mem_iff.mpr ho, hx⟩
  · rintro ⟨o, ho, hx⟩
    exact ⟨o, hperm.mem_iff.mp ho, hx⟩

/-- Every sphere with nonnegative discriminant and ordered roots obeys the
hittable contract with its two roots as candidate list: `Sphere::hit`
reports the least root strictly inside whatever interval it is given. -/
theorem sphere_lawful {μ : Type} (sq : ℚ → ℚ) (s : Sphere μ) (ray : Ray)
    (hd : 0 ≤ s.disc ray)
    (h12 : Sphere.root1 sq s ray ≤ Sphere.root2 sq s ray) :
    lawfulHit (Sphere.hit sq) ray s
      [Sphere.root1 sq s ray, Sphere.root2 sq s ray] := by
  intro i
  unfold Sphere.hit
  rw [if_neg (not_lt.mpr hd)]
  by_cases h1 : i.surrounds (Sphere.root1 sq s ray) = true
  · rw [if_pos h1, Sphere.mkHit_map_t]
    have hc1 : i.min < Sphere.root1 sq s ray ∧ Sphere.root1 sq s ray < i.max := by
      simpa [Interval.surrounds] using h1
    symm
    apply (leastIn_eq_some_iff i.min i.max _ _).mpr
    refine ⟨List.mem_cons_self _ _, hc1.1, hc1.2, ?_⟩
    intro x hx _ _
    rcases List.mem_cons.mp hx with rfl | hx'
    · exact le_refl _
    · rw [List.mem_singleton.mp hx']
      exact h12
  · rw [if_neg h1]
    have hn1 : ¬ (i.min < Sphere.root1 sq s ray ∧ Sphere.root1 sq s ray < i.max) := by
      simpa [Interval.surrounds] using h1
    by_cases h2 : i.surrounds (Sphere.root2 sq s ray) = true
    · rw [if_pos h2, Sphere.mkHit_map_t]
      have hc2 : i.min < Sphere.root2 sq s ray ∧ Sphere.root2 sq s ray < i.max := by
        simpa [Interval.surrounds] using h2
      symm
      apply (leastIn_eq_some_iff i.min i.max _ _).mpr
      refine ⟨List.mem_cons_of_mem _ (List.mem_singleton_self _), hc2.1, hc2.2, ?_⟩
      intro x hx hx1 hx2
      rcases List.mem_cons.mp hx with rfl | hx'
      · exact absurd ⟨hx1, hx2⟩ hn1
      · rw [List.mem_singleton.mp hx']
    · rw [if_neg h2]
      have hn2 : ¬ (i.min < Sphere.root2 sq s ray ∧ Sphere.root2 sq s ray < i.max) := by
        simpa [Interval.surrounds] using h2
      simp only [Option.map_none']
      symm
      apply (leastIn_eq_none_iff i.min i.max _).mpr
      intro x hx
      rcases List.mem_cons.mp hx with rfl | hx'
      · exact hn1
      · rw [List.mem_singleton.mp hx']
        exact hn2

theorem Vec3.sub_def (u v : Vec3) :
    u - v = ⟨u.x - v.x, u.y - v.y, u.z - v.z⟩ := rfl

theorem Vec3.add_def (u v : Vec3) :
    u + v = ⟨u.x + v.x, u.y + v.y, u.z + v.z⟩ := rfl

theorem Vec3.neg_def (u : Vec3) : -u = ⟨-u.x, -u.y, -u.z⟩ := rfl

theorem Vec3.smul_def (s : ℚ) (u : Vec3) :
    s • u = ⟨s * u.x, s * u.y, s * u.z⟩ := rfl

theorem Vec3.div_def (u : Vec3) (s : ℚ) :
    u / s = ⟨1 / s * u.x, 1 / s * u.y, 1 / s * u.z⟩ := rfl

/-- C4 counterexample: two spheres with identical geometry but different
materials are hit at exactly the same parameter; swapping their order (a
permutation of the list) changes which record `HittableList::hit` returns,
so the result is not the same for every permutation. -/
theorem hittable_list_hit_order_dependent :
    List.Perm [sphereM0, sphereM1] [sphereM1, sphereM0]
    ∧ hittableListHit (Sphere.hit id) [sphereM0, sphereM1] rayZ ivZ
        ≠ hittableListHit (Sphere.hit id) [sphereM1, sphereM0] rayZ ivZ := by
  constructor
  · exact List.Perm.swap sphereM1 sphereM0 []
  · norm_num [hittableListHit, listHitStep, List.foldl, Sphere.hit, Sphere.disc,
      Sphere.halfB, Sphere.ccoef, Sphere.root1, Sphere.root2, Sphere.mkHit,
      HitRecord.new, Interval.surrounds, Vec3.dot, Vec3.lenSqr, Vec3.sub_def,
      Vec3.add_def, Vec3.neg_def, Vec3.smul_def, Vec3.div_def, Ray.at,
      sphereM0, sphereM1, rayZ, ivZ]

/-- C4 witness: the singleton scene consisting of `sphereM0`, whose
candidates are its two roots relative to `rayZ`. -/
theorem hittable_list_hit_min_t_witness :
    listHitSpec (Sphere.hit id) rayZ candsZ [sphereM0] ivZ :=
  hittable_list_hit_min_t (Sphere.hit id) rayZ candsZ [sphereM0]
    (by
      intro o ho
      rw [List.mem_singleton.mp ho]
      exact sphere_lawful id sphereM0 rayZ
        (by norm_num [Sphere.disc, Sphere.halfB, Sphere.ccoef, Vec3.lenSqr,
          Vec3.dot, Vec3.sub_def, sphereM0, rayZ])
        (by norm_num [Sphere.root1, Sphere.root2, Sphere.disc, Sphere.halfB,
          Sphere.ccoef, Vec3.lenSqr, Vec3.dot, Vec3.sub_def, sphereM0, rayZ]))
    ivZ

/-- C5 witness: aspect ratio `2`, width `3`: the height is
`max(1, trunc(1.5)) = 1`. -/
theorem camera_image_height_truncated_witness :
    (0 : ℚ) < 2
    ∧ (Camera.new id id id 2 3 1 1 90 ⟨0, 0, 0⟩ ⟨0, 0, -1⟩ ⟨0, 1, 0⟩ 0 1).toOption.map
        Camera.image_height = some (max 1 (Int.floor (((3 : ℕ) : ℚ) / 2)).toNat) :=
  ⟨by norm_num,
    camera_image_height_truncated id id id 2 3 1 1 90 ⟨0, 0, 0⟩ ⟨0, 0, -1⟩
      ⟨0, 1, 0⟩ 0 1 (by norm_num) (by norm_num) (by norm_num) (by norm_num)⟩

end Raytracer
